import Mathlib

/-!
# Verification of the genius-hour feed-forward neural network engine

The repository is a from-scratch feed-forward neural network (Rust core
compiled to WASM, React frontend).  The checked-in sources here are the
wasm-bindgen JS glue (`predict_mnist`, `get_model_input_size`,
`get_model_output_size`), the React drawing frontends and the project
writeup; the Rust core (`network.rs`, `layer.rs`, `activation.rs`,
`loss.rs`, `serialization.rs`, `lib.rs`) is described by the design
document and is modelled here from that document.  The frontend grid
logic and the argmax display scan are translated directly from the
TypeScript sources.

Numeric values are modelled as real numbers (for the engine math) and
rationals (for the executable frontend logic).
-/

set_option maxRecDepth 8000

namespace GeniusHour

/-- Error taxonomy of the engine (spec section 7): shape disagreement,
backward-without-forward, deserialization inconsistency, non-finite
values, invalid configuration. -/
inductive EngineError where
  | shapeMismatch
  | stateError
  | corruptModel
  | numericInstability
  | invalidConfiguration
deriving DecidableEq

/-- Modelled from the spec: the closed activation variant of
`src/activation.rs` {Identity, ReLU, Sigmoid, Softmax}. -/
inductive ActivationKind where
  | identity
  | relu
  | sigmoid
  | softmax
deriving DecidableEq

/-- Modelled from the spec: the closed loss variant of `src/loss.rs`
{MeanSquaredError, CrossEntropy}. -/
inductive LossKind where
  | meanSquaredError
  | crossEntropy
deriving DecidableEq

noncomputable section

/-- Modelled from the spec: the sigmoid activation `1 / (1 + e^{-z})`. -/
def sigmoidFn (z : ℝ) : ℝ := 1 / (1 + Real.exp (-z))

/-- Maximum entry of a vector (used by the numerically stable softmax). -/
def maxOf (z : List ℝ) : ℝ := z.foldl max (z.headD 0)

/-- Modelled from the spec: numerically stable softmax of
`src/activation.rs`, `a_i = e^{z_i - max z} / Σ_j e^{z_j - max z}`
(the maximum is subtracted before exponentiation). -/
def softmaxFn (z : List ℝ) : List ℝ :=
  let m := maxOf z
  let es := z.map (fun zi => Real.exp (zi - m))
  es.map (fun e => e / es.sum)

/-- Modelled from the spec: `activate(kind, z)` of the activation
library (`src/activation.rs`). -/
def activate : ActivationKind → List ℝ → List ℝ
  | .identity, z => z
  | .relu, z => z.map (fun zi => max 0 zi)
  | .sigmoid, z => z.map sigmoidFn
  | .softmax, z => softmaxFn z

/-- Dot product of two vectors. -/
def dot (xs ys : List ℝ) : ℝ := (List.zipWith (· * ·) xs ys).sum

/-- Modelled from the spec: a dense layer of `src/layer.rs`: one weight
matrix (row-major, `output_width × input_width`), one bias vector and an
activation tag. -/
structure DenseLayer where
  weights : List (List ℝ)
  bias : List ℝ
  activation : ActivationKind

/-- Number of columns of the weight matrix. -/
def DenseLayer.inputWidth (l : DenseLayer) : ℕ := (l.weights.headD []).length

/-- Number of rows of the weight matrix. -/
def DenseLayer.outputWidth (l : DenseLayer) : ℕ := l.weights.length

/-- Shape invariant of a dense layer (spec section 3): positive widths,
rectangular weight matrix, bias length equal to the output width. -/
def DenseLayer.WellFormed (l : DenseLayer) : Prop :=
  0 < l.inputWidth ∧ 0 < l.outputWidth ∧
  (∀ row ∈ l.weights, row.length = l.inputWidth) ∧
  l.bias.length = l.outputWidth

/-- Modelled from the spec: the linear part of the layer forward pass,
`z = W·input + b`. -/
def DenseLayer.forwardZ (l : DenseLayer) (x : List ℝ) : List ℝ :=
  List.zipWith (· + ·) (l.weights.map (fun row => dot row x)) l.bias

/-- Modelled from the spec: the unchecked layer forward computation
`a = activate(kind, W·input + b)`. -/
def DenseLayer.forwardCore (l : DenseLayer) (x : List ℝ) : List ℝ :=
  activate l.activation (l.forwardZ x)

/-- Modelled from the spec: `DenseLayer::forward`, which fails with a
ShapeMismatch condition when the input length differs from the number
of weight columns. -/
def DenseLayer.forward (l : DenseLayer) (x : List ℝ) : Except EngineError (List ℝ) :=
  if x.length = l.inputWidth then .ok (l.forwardCore x) else .error .shapeMismatch

/-- Modelled from the spec: the network of `src/network.rs`, an ordered
sequence of dense layers plus a loss tag. -/
structure Network where
  layers : List DenseLayer
  loss : LossKind

/-- Declared input width: the first layer's number of weight columns. -/
def Network.inputWidth (net : Network) : ℕ :=
  match net.layers with
  | [] => 0
  | l :: _ => l.inputWidth

/-- Output width of the last layer of a layer list (0 when empty). -/
def lastOutputWidth (layers : List DenseLayer) : ℕ :=
  match layers.getLast? with
  | none => 0
  | some l => l.outputWidth

/-- Declared output width: the last layer's number of weight rows. -/
def Network.outputWidth (net : Network) : ℕ := lastOutputWidth net.layers

/-- Shape compatibility of a layer chain against an incoming width:
each layer is well formed, consumes exactly the incoming width and
feeds its output width to the next layer. -/
def chainOK : ℕ → List DenseLayer → Prop
  | _, [] => True
  | w, l :: rest => l.WellFormed ∧ l.inputWidth = w ∧ chainOK l.outputWidth rest

/-- Validity of a network (spec section 3): at least one layer and a
shape-compatible chain. -/
def Network.Valid (net : Network) : Prop :=
  net.layers ≠ [] ∧ chainOK net.inputWidth net.layers

/-- Run the layer chain left to right, propagating the first error. -/
def runLayers : List DenseLayer → List ℝ → Except EngineError (List ℝ)
  | [], x => .ok x
  | l :: rest, x =>
      match l.forward x with
      | .ok y => runLayers rest y
      | .error e => .error e

/-- Modelled from the spec: `Network::predict` feeds the input through
every layer in order; a length violation surfaces as ShapeMismatch. -/
def Network.predict (net : Network) (x : List ℝ) : Except EngineError (List ℝ) :=
  runLayers net.layers x

end

/-- Every activation preserves the length of its input vector. -/
theorem activate_length (k : ActivationKind) (z : List ℝ) :
    (activate k z).length = z.length := by
  cases k <;> simp [activate, softmaxFn]

/-- A well-formed layer maps a correctly sized input to an output of
its output width. -/
theorem forwardCore_length (l : DenseLayer) (hl : l.WellFormed) (x : List ℝ) :
    (l.forwardCore x).length = l.outputWidth := by
  obtain ⟨_, _, _, hb⟩ := hl
  simp [DenseLayer.forwardCore, DenseLayer.forwardZ, activate_length, hb,
    DenseLayer.outputWidth]

/-- Running a shape-compatible chain on a correctly sized input
succeeds and produces the last layer's output width. -/
theorem runLayers_length :
    ∀ (layers : List DenseLayer) (w : ℕ) (x : List ℝ),
      chainOK w layers → x.length = w → layers ≠ [] →
      ∃ y, runLayers layers x = .ok y ∧ y.length = lastOutputWidth layers := by
  intro layers
  induction layers with
  | nil => intro w x _ _ hne; exact absurd rfl hne
  | cons l rest ih =>
    intro w x hchain hx _
    obtain ⟨hwf, hin, hrest⟩ := hchain
    have hfwd : l.forward x = .ok (l.forwardCore x) := by
      simp [DenseLayer.forward, hx, hin]
    have hlen : (l.forwardCore x).length = l.outputWidth := forwardCore_length l hwf x
    cases rest with
    | nil =>
      refine ⟨l.forwardCore x, ?_, ?_⟩
      · simp [runLayers, hfwd]
      · simp [lastOutputWidth, hlen]
    | cons r rs =>
      obtain ⟨y, hy, hylen⟩ := ih l.outputWidth (l.forwardCore x) hrest hlen (by simp)
      refine ⟨y, ?_, ?_⟩
      · simp [runLayers, hfwd]
        simpa [runLayers] using hy
      · simpa [lastOutputWidth, List.getLast?_cons_cons] using hylen

/-!
## The inference boundary

`src/unnamed/part_000` is the wasm-bindgen glue: `predict_mnist` passes
the `Float32Array` to the WASM module and rethrows any error the module
reports; `get_model_input_size` and `get_model_output_size` return the
unsigned widths.  The WASM side (`src/lib.rs`) holds one loaded network
and is modelled from the spec.
-/

/-- Modelled from the spec: the state of the sandboxed inference
entrypoint (`src/lib.rs`): the one pretrained network loaded at start. -/
structure BoundaryState where
  net : Network

/-- Modelled from the spec: the stateful view of `predict_mnist` — it
computes `Network::predict` on the loaded model and leaves the loaded
model untouched, propagating any error to the caller. -/
noncomputable def predictMnistStateful (st : BoundaryState) (x : List ℝ) :
    Except EngineError (List ℝ) × BoundaryState :=
  (st.net.predict x, st)

/-- The exported `predict_mnist` operation: the result handed to the JS
caller (an error is rethrown by the glue in `part_000`). -/
noncomputable def predict_mnist (st : BoundaryState) (x : List ℝ) :
    Except EngineError (List ℝ) :=
  (predictMnistStateful st x).1

/-- Modelled from the spec: the exported read-only `get_model_input_size`
query of `part_000`: returns the loaded network's input width, state
unchanged. -/
def get_model_input_size (st : BoundaryState) : ℕ × BoundaryState :=
  (st.net.inputWidth, st)

/-- Modelled from the spec: the exported read-only `get_model_output_size`
query of `part_000`: returns the loaded network's output width, state
unchanged. -/
def get_model_output_size (st : BoundaryState) : ℕ × BoundaryState :=
  (st.net.outputWidth, st)

/-- A well-formed MNIST-shaped network is declared here for use by
several closed witnesses: one dense layer of 784 inputs and 10
outputs. -/
noncomputable def mnistWitnessNet : Network :=
  { layers := [{ weights := List.replicate 10 (List.replicate 784 (0 : ℝ)),
                 bias := List.replicate 10 0,
                 activation := .softmax }],
    loss := .crossEntropy }

/-- The witness network is a valid network. -/
theorem mnistWitnessNet_valid : mnistWitnessNet.Valid := by
  refine ⟨by simp [mnistWitnessNet], ?_⟩
  refine ⟨⟨?_, ?_, ?_, ?_⟩, ?_, trivial⟩
  · simp [mnistWitnessNet, DenseLayer.inputWidth]
  · simp [mnistWitnessNet, DenseLayer.outputWidth]
  · intro row hrow
    simp [mnistWitnessNet] at hrow
    simp [hrow, mnistWitnessNet, DenseLayer.inputWidth]
  · simp [mnistWitnessNet, DenseLayer.outputWidth]
  · simp [mnistWitnessNet, Network.inputWidth]

/-- C1: an input whose length is not the declared input width (784)
makes the inference boundary's predict fail with ShapeMismatch; no
prediction vector is returned. -/
theorem C1_predict_wrong_length_fails (st : BoundaryState) (x : List ℝ)
    (hne : st.net.layers ≠ []) (hw : st.net.inputWidth = 784)
    (hx : x.length ≠ 784) :
    predict_mnist st x = .error .shapeMismatch ∧
    ∀ y, predict_mnist st x ≠ .ok y := by
  have hmain : predict_mnist st x = .error .shapeMismatch := by
    cases hl : st.net.layers with
    | nil => exact absurd hl hne
    | cons l rest =>
      have hin : l.inputWidth = 784 := by
        simpa [Network.inputWidth, hl] using hw
      have : l.forward x = .error .shapeMismatch := by
        simp [DenseLayer.forward, hin, hx]
      simp [predict_mnist, predictMnistStateful, Network.predict, hl, runLayers, this]
  exact ⟨hmain, fun y hy => by simp [hmain] at hy⟩

theorem C1_predict_wrong_length_fails_witness :
    (mnistWitnessNet.layers ≠ [] ∧ mnistWitnessNet.inputWidth = 784 ∧
      ([] : List ℝ).length ≠ 784) ∧
    (predict_mnist ⟨mnistWitnessNet⟩ [] = .error .shapeMismatch ∧
      ∀ y, predict_mnist ⟨mnistWitnessNet⟩ [] ≠ .ok y) := by
  have h1 : mnistWitnessNet.layers ≠ [] := by simp [mnistWitnessNet]
  have h2 : mnistWitnessNet.inputWidth = 784 := by
    simp [mnistWitnessNet, Network.inputWidth, DenseLayer.inputWidth]
  have h3 : ([] : List ℝ).length ≠ 784 := by simp
  exact ⟨⟨h1, h2, h3⟩, C1_predict_wrong_length_fails ⟨mnistWitnessNet⟩ [] h1 h2 h3⟩

/-- C2: on a validly loaded network, an input of the declared input
width yields a prediction vector whose length is the declared output
width. -/
theorem C2_predict_output_length (st : BoundaryState) (x : List ℝ)
    (hv : st.net.Valid) (hx : x.length = st.net.inputWidth) :
    ∃ y, predict_mnist st x = .ok y ∧ y.length = st.net.outputWidth := by
  obtain ⟨hne, hchain⟩ := hv
  obtain ⟨y, hy, hlen⟩ :=
    runLayers_length st.net.layers st.net.inputWidth x hchain hx hne
  exact ⟨y, by simpa [predict_mnist, predictMnistStateful, Network.predict] using hy, hlen⟩

theorem C2_predict_output_length_witness :
    (mnistWitnessNet.Valid ∧
      (List.replicate 784 (0 : ℝ)).length = mnistWitnessNet.inputWidth) ∧
    ∃ y, predict_mnist ⟨mnistWitnessNet⟩ (List.replicate 784 (0 : ℝ)) = .ok y ∧
      y.length = mnistWitnessNet.outputWidth := by
  have hv : mnistWitnessNet.Valid := mnistWitnessNet_valid
  have hx : (List.replicate 784 (0 : ℝ)).length = mnistWitnessNet.inputWidth := by
    simp [mnistWitnessNet, Network.inputWidth, DenseLayer.inputWidth]
  exact ⟨⟨hv, hx⟩, C2_predict_output_length ⟨mnistWitnessNet⟩ _ hv hx⟩

/-- C7: the inference boundary is deterministic and side-effect-free:
equal inputs give equal outputs, the loaded model's state is unchanged
by a call, and a repeated call after a first one answers the same. -/
theorem C7_predict_deterministic_stateless (st : BoundaryState) (x y : List ℝ)
    (hxy : x = y) :
    (predictMnistStateful st x).2 = st ∧
    (predictMnistStateful st x).1 = (predictMnistStateful st y).1 ∧
    (predictMnistStateful (predictMnistStateful st x).2 y).1 =
      (predictMnistStateful st y).1 := by
  subst hxy
  exact ⟨rfl, rfl, rfl⟩

theorem C7_predict_deterministic_stateless_witness :
    ([] : List ℝ) = ([] : List ℝ) ∧
    ((predictMnistStateful ⟨mnistWitnessNet⟩ []).2 = ⟨mnistWitnessNet⟩ ∧
      (predictMnistStateful ⟨mnistWitnessNet⟩ []).1 =
        (predictMnistStateful ⟨mnistWitnessNet⟩ []).1 ∧
      (predictMnistStateful (predictMnistStateful ⟨mnistWitnessNet⟩ []).2 []).1 =
        (predictMnistStateful ⟨mnistWitnessNet⟩ []).1) :=
  ⟨rfl, C7_predict_deterministic_stateless ⟨mnistWitnessNet⟩ [] [] rfl⟩

/-- The exported operations of the wasm-bindgen boundary in `part_000`
(aside from internal wasm-bindgen plumbing): model loading check,
predict, and the two width queries. -/
inductive BoundaryExport where
  | ensureModelLoaded
  | predictMnist
  | getModelInputSize
  | getModelOutputSize
deriving DecidableEq

/-- The wasm-bindgen exports of `part_000`, in source order. -/
def boundaryExports : List BoundaryExport :=
  [.ensureModelLoaded, .predictMnist, .getModelInputSize, .getModelOutputSize]

/-- Whether an export is a read-only width query. -/
def isWidthQuery : BoundaryExport → Bool
  | .getModelInputSize => true
  | .getModelOutputSize => true
  | _ => false

/-- C8: besides predict, the boundary exposes exactly the two read-only
width queries; they return the network's input and output width as
natural numbers and modify no state. -/
theorem C8_two_readonly_width_queries (st : BoundaryState) :
    boundaryExports.filter isWidthQuery =
      [.getModelInputSize, .getModelOutputSize] ∧
    (boundaryExports.filter isWidthQuery).length = 2 ∧
    BoundaryExport.predictMnist ∉ boundaryExports.filter isWidthQuery ∧
    (get_model_input_size st).1 = st.net.inputWidth ∧
    (get_model_input_size st).2 = st ∧
    (get_model_output_size st).1 = st.net.outputWidth ∧
    (get_model_output_size st).2 = st :=
  ⟨by decide, by decide, by decide, rfl, rfl, rfl, rfl⟩

/-- Dividing every entry of a vector by the same constant divides its
sum by that constant. -/
theorem sum_map_div (l : List ℝ) (c : ℝ) :
    (l.map (fun e => e / c)).sum = l.sum / c := by
  induction l with
  | nil => simp
  | cons a t ih => simp [ih, add_div]

/-- C5: the softmax activation subtracts the maximum before
exponentiating and its output sums to exactly 1 (over the reals) for
every non-empty input. -/
theorem C5_softmax_max_subtraction_sums_to_one (z : List ℝ) (hz : z ≠ []) :
    activate .softmax z =
      z.map (fun zi =>
        Real.exp (zi - maxOf z) /
          (z.map (fun zj => Real.exp (zj - maxOf z))).sum) ∧
    (activate .softmax z).sum = 1 := by
  set m := maxOf z with hm
  set es := z.map (fun zi => Real.exp (zi - m)) with hes
  have hform : activate .softmax z = es.map (fun e => e / es.sum) := by
    simp [activate, softmaxFn, ← hm, ← hes]
  have hpos : 0 < es.sum := by
    apply List.sum_pos
    · intro a ha
      rw [hes] at ha
      obtain ⟨zi, _, rfl⟩ := List.mem_map.mp ha
      exact Real.exp_pos _
    · simp [hes, hz]
  constructor
  · rw [hform, hes, List.map_map]
    rfl
  · rw [hform, sum_map_div, div_self (ne_of_gt hpos)]

theorem C5_softmax_max_subtraction_sums_to_one_witness :
    ([(0 : ℝ)] ≠ []) ∧
    (activate .softmax [(0 : ℝ)] =
      [(0 : ℝ)].map (fun zi =>
        Real.exp (zi - maxOf [(0 : ℝ)]) /
          ([(0 : ℝ)].map (fun zj => Real.exp (zj - maxOf [(0 : ℝ)]))).sum) ∧
      (activate .softmax [(0 : ℝ)]).sum = 1) :=
  ⟨by simp, C5_softmax_max_subtraction_sums_to_one [(0 : ℝ)] (by simp)⟩

/-!
## The grid-based drawing frontend (`src/unnamed/part_003`)

The grid is a flat 28×28 array of numbers, 0 for black, 1 for white.
Drawing sets an in-bounds cell to 1, clearing resets the whole grid,
and inference converts the grid directly to the `Float32Array` input.
Canvas mouse coordinates are modelled as rationals.
-/

/-- Constant `MNIST_SIZE` from the frontend sources. -/
def MNIST_SIZE : ℕ := 28

/-- Constant `PIXEL_SCALE = DISPLAY_CANVAS_SIZE / MNIST_SIZE` from `part_003`. -/
def PIXEL_SCALE : ℚ := 280 / 28

/-- Function `initialGrid` of `part_003`: a flat 28×28 array of zeros. -/
def initialGrid : List ℕ := List.replicate (MNIST_SIZE * MNIST_SIZE) 0

/-- Function `getGridCoordinates` of `part_003`: floor-divide the canvas
coordinates by the pixel scale and bounds-check against the grid. -/
def getGridCoordinates (canvasX canvasY : ℚ) : Option (ℕ × ℕ) :=
  let gridX : ℤ := Int.floor (canvasX / PIXEL_SCALE)
  let gridY : ℤ := Int.floor (canvasY / PIXEL_SCALE)
  if 0 ≤ gridX ∧ gridX < (MNIST_SIZE : ℤ) ∧ 0 ≤ gridY ∧ gridY < (MNIST_SIZE : ℤ) then
    some (gridX.toNat, gridY.toNat)
  else
    none

/-- Function `handlePixelInteraction` of `part_003`: when the coordinates are
valid, set the addressed cell to 1 (drawing always paints white). -/
def handlePixelInteraction (grid : List ℕ) (coords : Option (ℕ × ℕ)) : List ℕ :=
  match coords with
  | none => grid
  | some (gridX, gridY) => grid.set (gridY * MNIST_SIZE + gridX) 1

/-- Function `clearCanvas` of `part_003`: reset the grid to all zeros. -/
def clearCanvas : List ℕ := initialGrid

/-- Function `runInference` of `part_003` builds the `Float32Array` handed to
`predict_mnist` directly from the grid entries. -/
def runInferenceInput (grid : List ℕ) : List ℚ :=
  grid.map (fun v => (Nat.cast v : ℚ))

/-- The grid states reachable in the `part_003` frontend: the initial
grid, any drawing interaction, and clearing. -/
inductive GridReachable : List ℕ → Prop
  | init : GridReachable initialGrid
  | draw (g : List ℕ) (cx cy : ℚ) : GridReachable g →
      GridReachable (handlePixelInteraction g (getGridCoordinates cx cy))
  | clear (g : List ℕ) : GridReachable g → GridReachable clearCanvas

/-- C9: every reachable grid has 784 entries, each exactly 0 or 1, the
inference input built from it is likewise binarized, and every valid
drawing coordinate addresses an in-bounds cell. -/
theorem C9_grid_always_binarized (g : List ℕ) (hg : GridReachable g) :
    g.length = MNIST_SIZE * MNIST_SIZE ∧
    (∀ v ∈ g, v = 0 ∨ v = 1) ∧
    (∀ q ∈ runInferenceInput g, q = 0 ∨ q = 1) ∧
    (∀ cx cy gx gy, getGridCoordinates cx cy = some (gx, gy) →
      gy * MNIST_SIZE + gx < MNIST_SIZE * MNIST_SIZE) := by
  have hbound : ∀ cx cy gx gy, getGridCoordinates cx cy = some (gx, gy) →
      gy * MNIST_SIZE + gx < MNIST_SIZE * MNIST_SIZE := by
    intro cx cy gx gy h
    simp only [getGridCoordinates] at h
    split at h
    · rename_i hcond
      obtain ⟨h1, h2, h3, h4⟩ := hcond
      obtain ⟨rfl, rfl⟩ := Prod.mk.injEq .. ▸ Option.some.injEq .. ▸ h
      simp only [MNIST_SIZE] at h2 h4 ⊢
      omega
    · exact absurd h (by simp)
  have hinv : g.length = MNIST_SIZE * MNIST_SIZE ∧ ∀ v ∈ g, v = 0 ∨ v = 1 := by
    induction hg with
    | init =>
      constructor
      · simp [initialGrid]
      · intro v hv
        left
        exact List.eq_of_mem_replicate hv
    | draw g cx cy _ ih =>
      obtain ⟨hlen, hmem⟩ := ih
      cases hco : getGridCoordinates cx cy with
      | none => exact ⟨by simpa [handlePixelInteraction, hco] using hlen,
          by simpa [handlePixelInteraction, hco] using hmem⟩
      | some c =>
        obtain ⟨gx, gy⟩ := c
        constructor
        · simpa [handlePixelInteraction, hco] using hlen
        · intro v hv
          simp only [handlePixelInteraction, hco] at hv
          rcases List.mem_or_eq_of_mem_set hv with hvg | rfl
          · exact hmem v hvg
          · right; rfl
    | clear g _ _ =>
      constructor
      · simp [clearCanvas, initialGrid]
      · intro v hv
        left
        exact List.eq_of_mem_replicate hv
  refine ⟨hinv.1, hinv.2, ?_, hbound⟩
  intro q hq
  unfold runInferenceInput at hq
  rw [List.mem_map] at hq
  obtain ⟨w, hw, hqw⟩ := hq
  rcases hinv.2 w hw with h0 | h1
  · left; rw [← hqw, h0]; simp
  · right; rw [← hqw, h1]; simp

theorem C9_grid_always_binarized_witness :
    GridReachable (handlePixelInteraction initialGrid (getGridCoordinates 5 5)) ∧
    ((handlePixelInteraction initialGrid (getGridCoordinates 5 5)).length =
        MNIST_SIZE * MNIST_SIZE ∧
      (∀ v ∈ handlePixelInteraction initialGrid (getGridCoordinates 5 5),
        v = 0 ∨ v = 1) ∧
      (∀ q ∈ runInferenceInput
          (handlePixelInteraction initialGrid (getGridCoordinates 5 5)),
        q = 0 ∨ q = 1) ∧
      (∀ cx cy gx gy, getGridCoordinates cx cy = some (gx, gy) →
        gy * MNIST_SIZE + gx < MNIST_SIZE * MNIST_SIZE)) :=
  ⟨GridReachable.draw initialGrid 5 5 GridReachable.init,
   C9_grid_always_binarized _ (GridReachable.draw initialGrid 5 5 GridReachable.init)⟩

/-!
## The displayed-digit argmax scan (`part_002` and `part_003`)

Both frontends scan the returned probability vector with
`maxIndex = 0; maxValue = pred[0]` and replace the current best only on
a strictly greater value.  Probabilities are modelled as rationals.
-/

/-- The frontend argmax loop: remaining values, current index, current
best index, current best value. -/
def argmaxLoop : List ℚ → ℕ → ℕ → ℚ → ℕ
  | [], _, best, _ => best
  | v :: rest, i, best, m =>
      if m < v then argmaxLoop rest (i + 1) i v
      else argmaxLoop rest (i + 1) best m

/-- Function `runInference` of `part_002`/`part_003`: the displayed digit is the
index produced by scanning the prediction from index 1 with the value
at index 0 as the initial best. -/
def runInferenceArgmax (pred : List ℚ) : ℕ :=
  argmaxLoop pred.tail 1 0 (pred.headD 0)

/-- Characterization of the argmax loop: either no entry beats the
carried best value and the carried best index is returned, or the
returned index addresses the first entry strictly exceeding the carried
value that attains the maximum of the remainder. -/
theorem argmaxLoop_spec (rest : List ℚ) : ∀ (i b : ℕ) (m : ℚ),
    (argmaxLoop rest i b m = b ∧ ∀ k < rest.length, rest.getD k 0 ≤ m) ∨
    (∃ k, k < rest.length ∧ argmaxLoop rest i b m = i + k ∧
      m < rest.getD k 0 ∧
      (∀ j < rest.length, rest.getD j 0 ≤ rest.getD k 0) ∧
      (∀ j < k, rest.getD j 0 < rest.getD k 0)) := by
  induction rest with
  | nil =>
    intro i b m
    left
    exact ⟨rfl, fun k hk => by simp at hk⟩
  | cons v vs ih =>
    intro i b m
    by_cases hvm : m < v
    · rcases ih (i + 1) i v with ⟨heq, hle⟩ | ⟨k, hk, heq, hlt, hmax, hstrict⟩
      · right
        refine ⟨0, by simp, ?_, by simpa using hvm, ?_, ?_⟩
        · simpa [argmaxLoop, hvm] using heq
        · intro j hj
          cases j with
          | zero => simp
          | succ j' =>
            simp only [List.getD_cons_succ, List.getD_cons_zero]
            exact hle j' (by simpa using hj)
        · intro j hj
          omega
      · right
        refine ⟨k + 1, by simpa using hk, ?_, ?_, ?_, ?_⟩
        · have : argmaxLoop (v :: vs) i b m = (i + 1) + k := by
            simpa [argmaxLoop, hvm] using heq
          omega
        · simpa using lt_trans hvm hlt
        · intro j hj
          cases j with
          | zero => simpa using le_of_lt hlt
          | succ j' =>
            simp only [List.getD_cons_succ]
            exact hmax j' (by simpa using hj)
        · intro j hj
          cases j with
          | zero => simpa using hlt
          | succ j' =>
            simp only [List.getD_cons_succ]
            exact hstrict j' (by omega)
    · rcases ih (i + 1) b m with ⟨heq, hle⟩ | ⟨k, hk, heq, hlt, hmax, hstrict⟩
      · left
        refine ⟨by simpa [argmaxLoop, hvm] using heq, ?_⟩
        intro k hk
        cases k with
        | zero => simpa using le_of_not_lt hvm
        | succ k' =>
          simp only [List.getD_cons_succ]
          exact hle k' (by simpa using hk)
      · right
        refine ⟨k + 1, by simpa using hk, ?_, by simpa using hlt, ?_, ?_⟩
        · have : argmaxLoop (v :: vs) i b m = (i + 1) + k := by
            simpa [argmaxLoop, hvm] using heq
          omega
        · intro j hj
          cases j with
          | zero =>
            simp only [List.getD_cons_succ, List.getD_cons_zero]
            exact le_trans (le_of_not_lt hvm) (le_of_lt hlt)
          | succ j' =>
            simp only [List.getD_cons_succ]
            exact hmax j' (by simpa using hj)
        · intro j hj
          cases j with
          | zero =>
            simp only [List.getD_cons_succ, List.getD_cons_zero]
            exact lt_of_le_of_lt (le_of_not_lt hvm) hlt
          | succ j' =>
            simp only [List.getD_cons_succ]
            exact hstrict j' (by omega)

/-- Every in-range default-read of a constant vector is the constant. -/
theorem getD_replicate_of_lt (c : ℚ) : ∀ (n k : ℕ), k < n →
    (List.replicate n c).getD k 0 = c := by
  intro n
  induction n with
  | zero => intro k hk; omega
  | succ n' ih =>
    intro k hk
    cases k with
    | zero => simp [List.replicate_succ]
    | succ k' => simpa [List.replicate_succ] using ih k' (by omega)

/-- On a constant (uniform) vector the frontend scan never sees a
strictly greater value, so the displayed digit is 0. -/
theorem runInferenceArgmax_uniform (n : ℕ) (c : ℚ) :
    runInferenceArgmax (List.replicate (n + 1) c) = 0 := by
  have hrun : runInferenceArgmax (List.replicate (n + 1) c) =
      argmaxLoop (List.replicate n c) 1 0 c := by
    simp [runInferenceArgmax, List.replicate_succ]
  rcases argmaxLoop_spec (List.replicate n c) 1 0 c with ⟨heq, _⟩ |
      ⟨k, hk, _, hlt, _, _⟩
  · rw [hrun, heq]
  · rw [getD_replicate_of_lt c n k (by simpa using hk)] at hlt
    exact absurd hlt (lt_irrefl c)

/-- C10: on a non-empty prediction vector the displayed digit is the
smallest index attaining the maximum value, and a uniform vector
displays digit 0. -/
theorem C10_displayed_digit_least_argmax (pred : List ℚ) (h : pred ≠ []) :
    runInferenceArgmax pred < pred.length ∧
    (∀ j < pred.length,
      pred.getD j 0 ≤ pred.getD (runInferenceArgmax pred) 0) ∧
    (∀ j < runInferenceArgmax pred,
      pred.getD j 0 < pred.getD (runInferenceArgmax pred) 0) ∧
    (∀ (n : ℕ) (c : ℚ), runInferenceArgmax (List.replicate (n + 1) c) = 0) := by
  cases pred with
  | nil => exact absurd rfl h
  | cons p tail =>
    have hunif : ∀ (n : ℕ) (c : ℚ),
        runInferenceArgmax (List.replicate (n + 1) c) = 0 :=
      runInferenceArgmax_uniform
    have hrun : runInferenceArgmax (p :: tail) = argmaxLoop tail 1 0 p := rfl
    rcases argmaxLoop_spec tail 1 0 p with ⟨heq, hle⟩ | ⟨k, hk, heq, hlt, hmax, hstrict⟩
    · have hr : runInferenceArgmax (p :: tail) = 0 := by rw [hrun, heq]
      refine ⟨by simp [hr], ?_, ?_, hunif⟩
      · intro j hj
        rw [hr]
        cases j with
        | zero => simp
        | succ j' =>
          simp only [List.getD_cons_succ, List.getD_cons_zero]
          exact hle j' (by simpa using hj)
      · intro j hj
        rw [hr] at hj
        omega
    · have hr : runInferenceArgmax (p :: tail) = k + 1 := by
        rw [hrun, heq]; omega
      have hget : (p :: tail).getD (k + 1) 0 = tail.getD k 0 := by
        simp [List.getD_cons_succ]
      refine ⟨by simp [hr]; omega, ?_, ?_, hunif⟩
      · intro j hj
        rw [hr, hget]
        cases j with
        | zero => simpa using le_of_lt hlt
        | succ j' =>
          simp only [List.getD_cons_succ]
          exact hmax j' (by simpa using hj)
      · intro j hj
        rw [hr] at hj
        rw [hr, hget]
        cases j with
        | zero => simpa using hlt
        | succ j' =>
          simp only [List.getD_cons_succ]
          exact hstrict j' (by omega)

theorem C10_displayed_digit_least_argmax_witness :
    ([(1 : ℚ) / 2, 3 / 4, 3 / 4] ≠ []) ∧
    (runInferenceArgmax [(1 : ℚ) / 2, 3 / 4, 3 / 4] <
        ([(1 : ℚ) / 2, 3 / 4, 3 / 4] : List ℚ).length ∧
      (∀ j < ([(1 : ℚ) / 2, 3 / 4, 3 / 4] : List ℚ).length,
        ([(1 : ℚ) / 2, 3 / 4, 3 / 4] : List ℚ).getD j 0 ≤
          ([(1 : ℚ) / 2, 3 / 4, 3 / 4] : List ℚ).getD
            (runInferenceArgmax [(1 : ℚ) / 2, 3 / 4, 3 / 4]) 0) ∧
      (∀ j < runInferenceArgmax [(1 : ℚ) / 2, 3 / 4, 3 / 4],
        ([(1 : ℚ) / 2, 3 / 4, 3 / 4] : List ℚ).getD j 0 <
          ([(1 : ℚ) / 2, 3 / 4, 3 / 4] : List ℚ).getD
            (runInferenceArgmax [(1 : ℚ) / 2, 3 / 4, 3 / 4]) 0) ∧
      (∀ (n : ℕ) (c : ℚ), runInferenceArgmax (List.replicate (n + 1) c) = 0)) :=
  ⟨by simp, C10_displayed_digit_least_argmax [(1 : ℚ) / 2, 3 / 4, 3 / 4] (by simp)⟩

/-!
## The model codec (`src/serialization.rs`, modelled from the spec)

A serialized model is an architecture header (per-layer input width,
output width, activation tag, plus a loss tag) followed by the flat
parameter stream, layer-major, weights before bias, row-major weights.
A parameter stream entry models one serialized parameter value.
-/

/-- Modelled from the spec: the serialized activation tag. -/
def tagOfActivation : ActivationKind → ℕ
  | .identity => 0
  | .relu => 1
  | .sigmoid => 2
  | .softmax => 3

/-- Modelled from the spec: decoding an activation tag; unknown tags
decode to nothing. -/
def decodeActivationTag : ℕ → Option ActivationKind
  | 0 => some .identity
  | 1 => some .relu
  | 2 => some .sigmoid
  | 3 => some .softmax
  | _ => none

/-- Modelled from the spec: the serialized loss tag. -/
def tagOfLoss : LossKind → ℕ
  | .meanSquaredError => 0
  | .crossEntropy => 1

/-- Modelled from the spec: decoding a loss tag; unknown tags decode to
nothing. -/
def decodeLossTag : ℕ → Option LossKind
  | 0 => some .meanSquaredError
  | 1 => some .crossEntropy
  | _ => none

/-- One layer's architecture header entry. -/
structure LayerHeader where
  inputWidth : ℕ
  outputWidth : ℕ
  activationTag : ℕ
deriving DecidableEq

/-- Modelled from the spec: the serialized model: architecture
descriptor plus concatenated raw parameters. -/
structure SerializedModel where
  headers : List LayerHeader
  lossTag : ℕ
  params : List ℝ

/-- Number of parameters a header entry declares: a full weight matrix
plus a bias vector. -/
def LayerHeader.paramCount (h : LayerHeader) : ℕ :=
  h.inputWidth * h.outputWidth + h.outputWidth

/-- Total parameter count declared by the architecture header. -/
def declaredParamCount (hs : List LayerHeader) : ℕ :=
  (hs.map LayerHeader.paramCount).sum

/-- A malformed header entry: a non-positive width or an unknown
activation tag. -/
def LayerHeader.Malformed (h : LayerHeader) : Prop :=
  h.inputWidth = 0 ∨ h.outputWidth = 0 ∨ decodeActivationTag h.activationTag = none

instance (h : LayerHeader) : Decidable h.Malformed := by
  unfold LayerHeader.Malformed
  infer_instance

/-- The header entry a layer serializes to. -/
def headerOfLayer (l : DenseLayer) : LayerHeader :=
  ⟨l.inputWidth, l.outputWidth, tagOfActivation l.activation⟩

/-- A layer's flat parameter stream: row-major weights, then bias. -/
noncomputable def flatLayerParams (l : DenseLayer) : List ℝ :=
  l.weights.flatten ++ l.bias

/-- Modelled from the spec: `ModelCodec.save` captures the architecture
and flattens all parameters layer-major, weights before bias,
row-major. -/
noncomputable def ModelCodec.save (net : Network) : SerializedModel :=
  { headers := net.layers.map headerOfLayer,
    lossTag := tagOfLoss net.loss,
    params := (net.layers.map flatLayerParams).flatten }

/-- Read `count` rows of `size` values each from a flat stream. -/
noncomputable def takeRows (size : ℕ) : ℕ → List ℝ → List (List ℝ)
  | 0, _ => []
  | count + 1, xs => xs.take size :: takeRows size count (xs.drop size)

/-- Rebuild the layer list from the header and the flat stream, reading
exactly the declared number of values per layer. -/
noncomputable def buildLayers : List LayerHeader → List ℝ → List DenseLayer
  | [], _ => []
  | h :: hs, ps =>
      let wcount := h.outputWidth * h.inputWidth
      { weights := takeRows h.inputWidth h.outputWidth ps,
        bias := (ps.drop wcount).take h.outputWidth,
        activation := (decodeActivationTag h.activationTag).getD .identity } ::
      buildLayers hs ((ps.drop wcount).drop h.outputWidth)

/-- Modelled from the spec: `ModelCodec.load` validates the header
(known tags, positive widths) and the parameter byte length against
the header-declared count, failing with CorruptModel otherwise, then
reconstructs the network. -/
noncomputable def ModelCodec.load (m : SerializedModel) : Except EngineError Network :=
  if (∃ h ∈ m.headers, h.Malformed) ∨ decodeLossTag m.lossTag = none ∨
      m.params.length ≠ declaredParamCount m.headers then
    .error .corruptModel
  else
    .ok { layers := buildLayers m.headers m.params,
          loss := (decodeLossTag m.lossTag).getD .meanSquaredError }

/-- C6: a length mismatch between the parameter stream and the
header-declared count (truncation included), or a malformed header
(unknown activation or loss tag, non-positive width), makes load fail
with CorruptModel and produce no network. -/
theorem C6_load_corrupt_model (m : SerializedModel)
    (hbad : (∃ h ∈ m.headers, h.Malformed) ∨ decodeLossTag m.lossTag = none ∨
      m.params.length ≠ declaredParamCount m.headers) :
    ModelCodec.load m = .error .corruptModel ∧
    ∀ net, ModelCodec.load m ≠ .ok net := by
  have h1 : ModelCodec.load m = .error .corruptModel := by
    unfold ModelCodec.load
    rw [if_pos hbad]
  exact ⟨h1, fun net hnet => by simp [h1] at hnet⟩

/-- A serialized model whose header declares three parameters but whose
stream is empty (truncated). -/
def truncatedModel : SerializedModel :=
  { headers := [⟨2, 1, 0⟩], lossTag := 0, params := [] }

theorem C6_load_corrupt_model_witness :
    ((∃ h ∈ truncatedModel.headers, h.Malformed) ∨
      decodeLossTag truncatedModel.lossTag = none ∨
      truncatedModel.params.length ≠ declaredParamCount truncatedModel.headers) ∧
    (ModelCodec.load truncatedModel = .error .corruptModel ∧
      ∀ net, ModelCodec.load truncatedModel ≠ .ok net) := by
  have hbad : (∃ h ∈ truncatedModel.headers, h.Malformed) ∨
      decodeLossTag truncatedModel.lossTag = none ∨
      truncatedModel.params.length ≠ declaredParamCount truncatedModel.headers := by
    right; right
    simp [truncatedModel, declaredParamCount, LayerHeader.paramCount]
  exact ⟨hbad, C6_load_corrupt_model truncatedModel hbad⟩

/-- Activation tags decode back to the activation they encode. -/
theorem decode_tagOfActivation (a : ActivationKind) :
    decodeActivationTag (tagOfActivation a) = some a := by
  cases a <;> rfl

/-- Loss tags decode back to the loss they encode. -/
theorem decode_tagOfLoss (k : LossKind) :
    decodeLossTag (tagOfLoss k) = some k := by
  cases k <;> rfl

/-- A rectangular matrix flattens to `rows * size` values. -/
theorem flatten_length_rect (size : ℕ) :
    ∀ (rows : List (List ℝ)), (∀ r ∈ rows, r.length = size) →
      rows.flatten.length = rows.length * size := by
  intro rows
  induction rows with
  | nil => simp
  | cons r rs ih =>
    intro h
    have hr : r.length = size := h r (by simp)
    have hrest := ih (fun q hq => h q (by simp [hq]))
    simp only [List.flatten_cons, List.length_append, List.length_cons, hr, hrest]
    ring

/-- Reading back the rows of a rectangular matrix from its flattened
stream (with any suffix) recovers the matrix. -/
theorem takeRows_flatten (size : ℕ) :
    ∀ (rows : List (List ℝ)) (rest : List ℝ), (∀ r ∈ rows, r.length = size) →
      takeRows size rows.length (rows.flatten ++ rest) = rows := by
  intro rows
  induction rows with
  | nil => intro rest _; simp [takeRows]
  | cons r rs ih =>
    intro rest h
    have hr : r.length = size := h r (by simp)
    have htake : (r ++ (rs.flatten ++ rest)).take size = r := by
      rw [← hr, List.take_left]
    have hdrop : (r ++ (rs.flatten ++ rest)).drop size = rs.flatten ++ rest := by
      rw [← hr, List.drop_left]
    simp only [List.length_cons, takeRows, List.flatten_cons, List.append_assoc,
      htake, hdrop]
    rw [ih rest (fun q hq => h q (by simp [hq]))]

/-- Rebuilding from the saved header and flat stream (with any suffix)
recovers the layer list exactly. -/
theorem buildLayers_save :
    ∀ (layers : List DenseLayer) (rest : List ℝ), (∀ l ∈ layers, l.WellFormed) →
      buildLayers (layers.map headerOfLayer)
        ((layers.map flatLayerParams).flatten ++ rest) = layers := by
  intro layers
  induction layers with
  | nil => intro rest _; simp [buildLayers]
  | cons l ls ih =>
    intro rest h
    obtain ⟨hin, hout, hrows, hbias⟩ := h l (by simp)
    have hwlen : l.weights.flatten.length = l.outputWidth * l.inputWidth := by
      rw [flatten_length_rect l.inputWidth l.weights hrows]
      rfl
    have hps : (flatLayerParams l :: List.map flatLayerParams ls).flatten ++ rest =
        l.weights.flatten ++ (l.bias ++ ((ls.map flatLayerParams).flatten ++ rest)) := by
      simp [flatLayerParams, List.flatten_cons, List.append_assoc]
    simp only [List.map_cons, buildLayers, hps]
    have hdropw : (l.weights.flatten ++
        (l.bias ++ ((ls.map flatLayerParams).flatten ++ rest))).drop
          ((headerOfLayer l).outputWidth * (headerOfLayer l).inputWidth) =
        l.bias ++ ((ls.map flatLayerParams).flatten ++ rest) := by
      rw [show (headerOfLayer l).outputWidth * (headerOfLayer l).inputWidth =
          l.weights.flatten.length from hwlen.symm, List.drop_left]
    have htakeb : (l.bias ++ ((ls.map flatLayerParams).flatten ++ rest)).take
        (headerOfLayer l).outputWidth = l.bias := by
      rw [show (headerOfLayer l).outputWidth = l.bias.length from hbias.symm,
        List.take_left]
    have hdropb : (l.bias ++ ((ls.map flatLayerParams).flatten ++ rest)).drop
        (headerOfLayer l).outputWidth = (ls.map flatLayerParams).flatten ++ rest := by
      rw [show (headerOfLayer l).outputWidth = l.bias.length from hbias.symm,
        List.drop_left]
    have hweights : takeRows (headerOfLayer l).inputWidth (headerOfLayer l).outputWidth
        (l.weights.flatten ++ (l.bias ++ ((ls.map flatLayerParams).flatten ++ rest))) =
        l.weights := by
      have := takeRows_flatten l.inputWidth l.weights
        (l.bias ++ ((ls.map flatLayerParams).flatten ++ rest)) hrows
      simpa [headerOfLayer, DenseLayer.outputWidth] using this
    rw [hdropw, htakeb, hdropb, hweights, ih _ (fun q hq => h q (by simp [hq]))]
    have hact : (decodeActivationTag (headerOfLayer l).activationTag).getD
        ActivationKind.identity = l.activation := by
      simp [headerOfLayer, decode_tagOfActivation]
    rw [hact]

/-- The parameter stream written by save has exactly the length the
written header declares. -/
theorem save_params_length :
    ∀ (layers : List DenseLayer), (∀ l ∈ layers, l.WellFormed) →
      ((layers.map flatLayerParams).flatten).length =
        declaredParamCount (layers.map headerOfLayer) := by
  intro layers
  induction layers with
  | nil => simp [declaredParamCount]
  | cons l ls ih =>
    intro h
    obtain ⟨hin, hout, hrows, hbias⟩ := h l (by simp)
    have hwlen : l.weights.flatten.length = l.outputWidth * l.inputWidth := by
      rw [flatten_length_rect l.inputWidth l.weights hrows]
      rfl
    have hrest := ih (fun q hq => h q (by simp [hq]))
    simp only [List.map_cons, List.flatten_cons, List.length_append, hrest,
      declaredParamCount, List.map_map, flatLayerParams]
    simp only [declaredParamCount, List.map_map] at hrest
    simp only [List.length_append, hwlen, hbias, List.sum_cons]
    have : (headerOfLayer l).paramCount =
        l.outputWidth * l.inputWidth + l.outputWidth := by
      simp [headerOfLayer, LayerHeader.paramCount]
      ring
    omega

/-- Every layer of a shape-compatible chain is well formed. -/
theorem chainOK_wellFormed :
    ∀ (layers : List DenseLayer) (w : ℕ), chainOK w layers →
      ∀ l ∈ layers, l.WellFormed := by
  intro layers
  induction layers with
  | nil => intro w _ l hl; simp at hl
  | cons p ps ih =>
    intro w hchain l hl
    obtain ⟨hwf, _, hrest⟩ := hchain
    rcases List.mem_cons.mp hl with rfl | hmem
    · exact hwf
    · exact ih p.outputWidth hrest l hmem

/-- The header written for a well-formed layer is not malformed. -/
theorem headerOfLayer_not_malformed (l : DenseLayer) (h : l.WellFormed) :
    ¬ (headerOfLayer l).Malformed := by
  obtain ⟨hin, hout, _, _⟩ := h
  intro hmal
  rcases hmal with h0 | h0 | h0
  · simp [headerOfLayer] at h0; omega
  · simp [headerOfLayer] at h0; omega
  · rw [show (headerOfLayer l).activationTag = tagOfActivation l.activation from rfl,
      decode_tagOfActivation] at h0
    exact Option.some_ne_none _ h0

/-- C3: the codec round-trips: loading a saved valid network reproduces
the network parameter-for-parameter, and the reloaded network predicts
identically on every input. -/
theorem C3_codec_round_trip (net : Network) (hv : net.Valid) :
    ModelCodec.load (ModelCodec.save net) = .ok net ∧
    ∀ net2, ModelCodec.load (ModelCodec.save net) = .ok net2 →
      ∀ x, net2.predict x = net.predict x := by
  have hwf : ∀ l ∈ net.layers, l.WellFormed :=
    chainOK_wellFormed net.layers net.inputWidth hv.2
  have hnotbad : ¬ ((∃ h ∈ (ModelCodec.save net).headers, h.Malformed) ∨
      decodeLossTag (ModelCodec.save net).lossTag = none ∨
      (ModelCodec.save net).params.length ≠
        declaredParamCount (ModelCodec.save net).headers) := by
    intro hbad
    rcases hbad with ⟨h, hmem, hmal⟩ | hloss | hlen
    · simp only [ModelCodec.save, List.mem_map] at hmem
      obtain ⟨l, hl, rfl⟩ := hmem
      exact headerOfLayer_not_malformed l (hwf l hl) hmal
    · rw [show (ModelCodec.save net).lossTag = tagOfLoss net.loss from rfl,
        decode_tagOfLoss] at hloss
      exact Option.some_ne_none _ hloss
    · exact hlen (save_params_length net.layers hwf)
  have hok : ModelCodec.load (ModelCodec.save net) = .ok net := by
    unfold ModelCodec.load
    rw [if_neg hnotbad]
    have hlayers : buildLayers (ModelCodec.save net).headers
        (ModelCodec.save net).params = net.layers := by
      have := buildLayers_save net.layers [] hwf
      simpa [ModelCodec.save] using this
    have hloss : (decodeLossTag (ModelCodec.save net).lossTag).getD
        LossKind.meanSquaredError = net.loss := by
      rw [show (ModelCodec.save net).lossTag = tagOfLoss net.loss from rfl,
        decode_tagOfLoss]
      rfl
    rw [hlayers, hloss]
  refine ⟨hok, ?_⟩
  intro net2 h2 x
  rw [hok] at h2
  cases h2
  rfl

theorem C3_codec_round_trip_witness :
    mnistWitnessNet.Valid ∧
    (ModelCodec.load (ModelCodec.save mnistWitnessNet) = .ok mnistWitnessNet ∧
      ∀ net2, ModelCodec.load (ModelCodec.save mnistWitnessNet) = .ok net2 →
        ∀ x, net2.predict x = mnistWitnessNet.predict x) :=
  ⟨mnistWitnessNet_valid, C3_codec_round_trip mnistWitnessNet mnistWitnessNet_valid⟩

/-!
## Training: backpropagation and the batch path (modelled from the spec)

`src/network.rs` (absent from src/) implements `train_batch`: a forward
pass retaining per-layer caches, a backward walk collecting
`(ΔW, Δb)` per layer, averaging over the batch, and one SGD update
`param ← param - learning_rate * grad`.
-/

noncomputable section

/-- Modelled from the spec: the small constant guarding `log 0` in the
cross-entropy loss. -/
def epsilon : ℝ := 1 / 100000000

/-- Modelled from the spec: elementwise activation derivatives
(identity: ones; ReLU: indicator of `z > 0`, subgradient 0 at 0;
sigmoid: `a (1 - a)`). -/
def activationDeriv : ActivationKind → List ℝ → List ℝ → List ℝ
  | .identity, z, _ => List.replicate z.length 1
  | .relu, z, _ => z.map (fun zi => if 0 < zi then (1 : ℝ) else 0)
  | .sigmoid, _, a => a.map (fun ai => ai * (1 - ai))
  | .softmax, _, a => a

/-- Modelled from the spec: combine an upstream gradient with the local
activation derivative: elementwise for the scalar activations, and the
Jacobian-vector product `a_i (g_i - Σ_j a_j g_j)` of
`diag(a) - a aᵀ` for softmax. -/
def localGrad (kind : ActivationKind) (z a upstream : List ℝ) : List ℝ :=
  match kind with
  | .softmax =>
      let s := (List.zipWith (· * ·) a upstream).sum
      List.zipWith (fun ai gi => ai * (gi - s)) a upstream
  | k => List.zipWith (· * ·) upstream (activationDeriv k z a)

/-- Modelled from the spec: loss gradients — MSE: `2/n (p - t)`;
cross-entropy: `-t_i / (p_i + ε)`. -/
def lossGradient : LossKind → List ℝ → List ℝ → List ℝ
  | .meanSquaredError, p, t =>
      List.zipWith (fun pi ti => 2 / (p.length : ℝ) * (pi - ti)) p t
  | .crossEntropy, p, t =>
      List.zipWith (fun pi ti => -ti / (pi + epsilon)) p t

/-- Modelled from the spec: scalar losses — MSE: `mean (p - t)^2`;
cross-entropy: `-Σ t_i log (p_i + ε)`. -/
def lossValue : LossKind → List ℝ → List ℝ → ℝ
  | .meanSquaredError, p, t =>
      (List.zipWith (fun pi ti => (pi - ti) ^ 2) p t).sum / (p.length : ℝ)
  | .crossEntropy, p, t =>
      -(List.zipWith (fun pi ti => ti * Real.log (pi + epsilon)) p t).sum

/-- The per-layer values cached by the forward pass for backward. -/
structure LayerCache where
  input : List ℝ
  z : List ℝ
  a : List ℝ

/-- Forward pass through the chain, retaining each layer's cache. -/
def forwardTrace : List DenseLayer → List ℝ → List LayerCache
  | [], _ => []
  | l :: rest, x =>
      let z := l.forwardZ x
      let a := activate l.activation z
      ⟨x, z, a⟩ :: forwardTrace rest a

/-- The unchecked whole-network forward output (used by the training
path, whose shapes were already validated). -/
def forwardOutput (layers : List DenseLayer) (x : List ℝ) : List ℝ :=
  layers.foldl (fun v l => l.forwardCore v) x

/-- One layer's parameter gradient pair `(ΔW, Δb)`. -/
structure LayerGrad where
  dW : List (List ℝ)
  db : List ℝ

/-- Outer product `d ⊗ x`. -/
def outerProd (d x : List ℝ) : List (List ℝ) :=
  d.map (fun di => x.map (fun xj => di * xj))

/-- Scale a vector by a constant. -/
def vecScale (c : ℝ) (xs : List ℝ) : List ℝ := xs.map (fun v => c * v)

/-- Add two vectors. -/
def vecAdd (xs ys : List ℝ) : List ℝ := List.zipWith (· + ·) xs ys

/-- Product `Wᵀ · d` as the `d`-weighted sum of the rows of `W`. -/
def matTvec (W : List (List ℝ)) (d : List ℝ) (cols : ℕ) : List ℝ :=
  (List.zipWith (fun di row => vecScale di row) d W).foldl vecAdd
    (List.replicate cols 0)

/-- Modelled from the spec: the backward walk over the layers (paired
with their forward caches), producing the per-layer gradients and the
gradient at the network input.  The output layer uses the simplified
`a - target` form under the Softmax+CrossEntropy pairing. -/
def backward (lossKind : LossKind) (target : List ℝ) :
    List (DenseLayer × LayerCache) → List LayerGrad × List ℝ
  | [] => ([], [])
  | [(l, c)] =>
      let delta :=
        if l.activation = .softmax ∧ lossKind = .crossEntropy then
          List.zipWith (· - ·) c.a target
        else
          localGrad l.activation c.z c.a (lossGradient lossKind c.a target)
      ([⟨outerProd delta c.input, delta⟩], matTvec l.weights delta l.inputWidth)
  | (l, c) :: p :: t =>
      let r := backward lossKind target (p :: t)
      let delta := localGrad l.activation c.z c.a r.2
      (⟨outerProd delta c.input, delta⟩ :: r.1, matTvec l.weights delta l.inputWidth)

/-- The gradients of one sample, computed independently of any other
sample: forward pass with caches, then the backward walk. -/
def Network.sampleGrads (net : Network) (x target : List ℝ) : List LayerGrad :=
  (backward net.loss target (net.layers.zip (forwardTrace net.layers x))).1

/-- Elementwise sum of two layer gradients. -/
def addGrad (g h : LayerGrad) : LayerGrad :=
  ⟨List.zipWith (List.zipWith (· + ·)) g.dW h.dW, List.zipWith (· + ·) g.db h.db⟩

/-- Scale a layer gradient by a constant. -/
def scaleGrad (c : ℝ) (g : LayerGrad) : LayerGrad :=
  ⟨g.dW.map (fun row => row.map (fun v => c * v)), g.db.map (fun v => c * v)⟩

/-- Modelled from the spec: per-layer averaging of a batch's per-sample
gradient lists: sum layerwise, then divide by the batch size. -/
def averageGrads (gs : List (List LayerGrad)) : List LayerGrad :=
  match gs with
  | [] => []
  | g0 :: rest =>
      (rest.foldl (fun acc g => List.zipWith addGrad acc g) g0).map
        (scaleGrad (1 / ((g0 :: rest).length : ℝ)))

/-- Modelled from the spec: the SGD update rule
`param ← param - learning_rate * grad` applied to one layer. -/
def DenseLayer.applyUpdate (l : DenseLayer) (lr : ℝ) (g : LayerGrad) : DenseLayer :=
  { l with
    weights := List.zipWith (fun row grow =>
      List.zipWith (fun w gw => w - lr * gw) row grow) l.weights g.dW,
    bias := List.zipWith (fun b gb => b - lr * gb) l.bias g.db }

/-- Modelled from the spec: the batch path of the training step
(`train_batch` in `src/network.rs`): compute every sample's gradients,
average them, apply one update, and report the mean loss. -/
def Network.train_batch (net : Network) (samples : List (List ℝ × List ℝ))
    (lr : ℝ) : Network × ℝ :=
  let grads := samples.map (fun s => net.sampleGrads s.1 s.2)
  let avg := averageGrads grads
  ({ layers := List.zipWith (fun l g => l.applyUpdate lr g) net.layers avg,
     loss := net.loss },
   (samples.map (fun s =>
      lossValue net.loss (forwardOutput net.layers s.1) s.2)).sum /
     (samples.length : ℝ))

/-- The per-layer parameter difference between two networks. -/
def layerDelta (lnew lold : DenseLayer) : LayerGrad :=
  ⟨List.zipWith (List.zipWith (· - ·)) lnew.weights lold.weights,
   List.zipWith (· - ·) lnew.bias lold.bias⟩

/-- The parameter difference of a whole network, layer by layer. -/
def paramDelta (netNew netOld : Network) : List LayerGrad :=
  List.zipWith layerDelta netNew.layers netOld.layers

end

/-- The shape of a layer's parameters: row lengths and bias length. -/
def layerShape (l : DenseLayer) : List ℕ × ℕ :=
  (l.weights.map List.length, l.bias.length)

/-- The shape of a layer gradient: row lengths and bias-gradient
length. -/
def gradShape (g : LayerGrad) : List ℕ × ℕ :=
  (g.dW.map List.length, g.db.length)

/-- One SGD update followed by subtraction of the old vector leaves
exactly the negatively scaled gradient. -/
theorem vec_update_delta (lr : ℝ) :
    ∀ (xs gs : List ℝ), xs.length = gs.length →
      List.zipWith (· - ·) (List.zipWith (fun w g => w - lr * g) xs gs) xs =
        gs.map (fun g => -lr * g) := by
  intro xs
  induction xs with
  | nil =>
    intro gs h
    cases gs with
    | nil => simp
    | cons g gt => simp at h
  | cons x xt ih =>
    intro gs h
    cases gs with
    | nil => simp at h
    | cons g gt =>
      simp only [List.length_cons] at h
      simp only [List.zipWith_cons_cons, List.map_cons, List.cons.injEq]
      exact ⟨by ring, ih gt (by omega)⟩

/-- Matrix version of `vec_update_delta`, row by row. -/
theorem mat_update_delta (lr : ℝ) :
    ∀ (W G : List (List ℝ)), W.map List.length = G.map List.length →
      List.zipWith (List.zipWith (· - ·))
        (List.zipWith (fun row grow =>
          List.zipWith (fun w gw => w - lr * gw) row grow) W G) W =
        G.map (fun row => row.map (fun v => -lr * v)) := by
  intro W
  induction W with
  | nil =>
    intro G h
    simp only [List.map_nil] at h
    rw [List.map_eq_nil_iff.mp h.symm]
    simp
  | cons r rt ih =>
    intro G h
    cases G with
    | nil => simp at h
    | cons g gt =>
      simp only [List.map_cons, List.cons.injEq] at h
      simp only [List.zipWith_cons_cons, List.map_cons, List.cons.injEq]
      exact ⟨vec_update_delta lr r g h.1, ih gt h.2⟩

/-- Per-layer version: updating by a shape-compatible gradient and
subtracting the old parameters leaves the negatively scaled gradient. -/
theorem layer_update_delta (lr : ℝ) (l : DenseLayer) (g : LayerGrad)
    (h : layerShape l = gradShape g) :
    layerDelta (l.applyUpdate lr g) l = scaleGrad (-lr) g := by
  simp only [layerShape, gradShape, Prod.mk.injEq] at h
  simp only [layerDelta, DenseLayer.applyUpdate, scaleGrad]
  rw [mat_update_delta lr l.weights g.dW h.1, vec_update_delta lr l.bias g.db h.2]

/-- Whole-network version over the layer lists. -/
theorem layers_update_delta (lr : ℝ) :
    ∀ (L : List DenseLayer) (G : List LayerGrad),
      L.map layerShape = G.map gradShape →
      List.zipWith layerDelta
        (List.zipWith (fun l g => l.applyUpdate lr g) L G) L =
        G.map (scaleGrad (-lr)) := by
  intro L
  induction L with
  | nil =>
    intro G h
    simp only [List.map_nil] at h
    rw [List.map_eq_nil_iff.mp h.symm]
    simp
  | cons l lt ih =>
    intro G h
    cases G with
    | nil => simp at h
    | cons g gt =>
      simp only [List.map_cons, List.cons.injEq] at h
      simp only [List.zipWith_cons_cons, List.map_cons, List.cons.injEq]
      exact ⟨layer_update_delta lr l g h.1, ih gt h.2⟩

/-- C4: the batch path computes every sample's gradients independently,
averages them, and applies one update: the resulting parameter delta is
exactly `-lr` times the average of the independently computed
per-sample gradients — not a sequence of per-sample updates. -/
theorem C4_train_batch_averages_gradients (net : Network)
    (samples : List (List ℝ × List ℝ)) (lr : ℝ)
    (hshape : net.layers.map layerShape =
      (averageGrads (samples.map (fun s => net.sampleGrads s.1 s.2))).map gradShape) :
    paramDelta (net.train_batch samples lr).1 net =
      (averageGrads (samples.map (fun s => net.sampleGrads s.1 s.2))).map
        (scaleGrad (-lr)) := by
  simp only [Network.train_batch, paramDelta]
  exact layers_update_delta lr net.layers
    (averageGrads (samples.map (fun s => net.sampleGrads s.1 s.2))) hshape

/-- A tiny concrete network and two-sample batch for the C4 witness. -/
noncomputable def batchWitnessNet : Network :=
  { layers := [{ weights := [[(1 : ℝ)]], bias := [0], activation := .identity }],
    loss := .meanSquaredError }

/-- The two-sample batch used by the C4 witness. -/
noncomputable def batchWitnessSamples : List (List ℝ × List ℝ) :=
  [([(1 : ℝ)], [0]), ([(2 : ℝ)], [0])]

theorem C4_train_batch_averages_gradients_witness :
    (batchWitnessNet.layers.map layerShape =
      (averageGrads (batchWitnessSamples.map
        (fun s => batchWitnessNet.sampleGrads s.1 s.2))).map gradShape) ∧
    paramDelta (batchWitnessNet.train_batch batchWitnessSamples 1).1 batchWitnessNet =
      (averageGrads (batchWitnessSamples.map
        (fun s => batchWitnessNet.sampleGrads s.1 s.2))).map (scaleGrad (-1)) := by
  have hshape : batchWitnessNet.layers.map layerShape =
      (averageGrads (batchWitnessSamples.map
        (fun s => batchWitnessNet.sampleGrads s.1 s.2))).map gradShape := by
    rfl
  exact ⟨hshape,
    C4_train_batch_averages_gradients batchWitnessNet batchWitnessSamples 1 hshape⟩

end GeniusHour
